import Mathlib

/-!
# Verification of the PLC serial data reader

Shallow embedding of `src/plc_reader.py` (class `PLCDataReader` and the
`SensorReading` dataclass).  Strings are modelled as `List Char`, Python
floats as exact rationals `ℚ` (parse fidelity), timestamps as `ℚ` seconds.
The mutable object state is the structure `State`; the operations are the
methods that mutate it.  Reachability of states is the inductive `Reachable`,
whose constructors are exactly the method calls the program performs
(`_store_reading`, `_connect_serial`, `_disconnect_serial`, and the health
loop marking the link disconnected).
-/

namespace PLCReader

/-- The characters Python's `str.strip()` and the regex class `\s` treat as
whitespace (ASCII range; the wire format is ASCII per the protocol). -/
def pyWs (c : Char) : Bool :=
  c == ' ' || c == '\t' || c == '\n' || c == '\r' ||
  c == Char.ofNat 11 || c == Char.ofNat 12

/-- Character class `[\d.]` of the validation regex: a decimal digit or a dot. -/
def isDigitDot (c : Char) : Bool := c.isDigit || c == '.'

/-- Trim trailing whitespace (the right half of Python `str.strip()`). -/
def trimBack (l : List Char) : List Char :=
  (l.reverse.dropWhile pyWs).reverse

/-- Python `str.strip()`: remove leading and trailing whitespace. -/
def stripChars (l : List Char) : List Char :=
  (trimBack l).dropWhile pyWs

/-- Match a literal prefix, returning the remainder (used to embed the
literal parts of the validation regex). -/
def dropLit : List Char → List Char → Option (List Char)
  | [], s => some s
  | _ :: _, [] => none
  | c :: cs, x :: xs => if x == c then dropLit cs xs else none

/-- Scan `[\d.]+`: the maximal run of digits/dots, failing if it is empty.
Because `,` is not in the class and the regex continues with `,`, the
regex's greedy match coincides with this maximal-munch scan. -/
def scanNum (s : List Char) : Option (List Char × List Char) :=
  match s.takeWhile isDigitDot with
  | [] => none
  | n => some (n, s.dropWhile isDigitDot)

/-- Python `str.split(sep)` for a one-character separator: all segments,
empty segments included (`"".split(',') == [""]`). -/
def splitOnChar (sep : Char) : List Char → List (List Char)
  | [] => [[]]
  | c :: cs =>
    if c == sep then [] :: splitOnChar sep cs
    else
      match splitOnChar sep cs with
      | [] => [[c]]
      | p :: ps => (c :: p) :: ps

/-- Python `str.split(sep, 1)` when the separator occurs (`None` otherwise):
the part before the first occurrence and the rest.  Used for
`buffer.split('\n', 1)` and `part.split(':', 1)`. -/
def splitFirstChar (sep : Char) : List Char → Option (List Char × List Char)
  | [] => none
  | c :: cs =>
    if c == sep then some ([], cs)
    else
      match splitFirstChar sep cs with
      | none => none
      | some (a, b) => some (c :: a, b)

/-- Python `str.lower()` (ASCII keys only occur here). -/
def toLowerChars (l : List Char) : List Char := l.map Char.toLower

/-- The numeric value of a digit string, base 10. -/
def natOfDigits (l : List Char) : ℕ :=
  l.foldl (fun a c => 10 * a + (c.toNat - '0'.toNat)) 0

/-- Value of a digits-and-dot string, splitting at the first dot (the
maximal digit run is the integer part, what follows the dot the fractional
part). -/
def digitsDotVal (s : List Char) : ℚ :=
  (natOfDigits (s.takeWhile Char.isDigit) : ℚ) +
    match s.dropWhile Char.isDigit with
    | '.' :: f => (natOfDigits f : ℚ) / 10 ^ f.length
    | _ => 0

/-- Model of Python's builtin `float(s)`, restricted to the argument shapes
that reach it in this program: `_parse_sensor_data` applies it only to value
substrings of a line accepted by the validation regex, which consist of
digits and dots.  On such strings `float` succeeds exactly when there is at
least one digit and at most one dot, and returns the base-10 value; on every
other string of digits and dots (e.g. `"1.2.3"`, `"."`) it raises
`ValueError`, modelled as `none`.  Strings outside the digits-and-dots
alphabet never reach `float` here and are mapped to `none`. -/
def pyFloat (s : List Char) : Option ℚ :=
  if s.all isDigitDot && s.any Char.isDigit && decide (s.count '.' ≤ 1) then
    some (digitsDotVal s)
  else none

/-- The three field keys of the wire format, upper-case, with the colon kept
separate so that splitting a field at its first colon is visible. -/
def keyTempName : List Char :=
  ['T', 'E', 'M', 'P', 'E', 'R', 'A', 'T', 'U', 'R', 'E']

def keyPressName : List Char :=
  ['P', 'R', 'E', 'S', 'S', 'U', 'R', 'E']

def keySpeedName : List Char :=
  ['S', 'P', 'E', 'E', 'D']

/-- `"TEMPERATURE:"` as matched by the validation regex. -/
def keyTemperature : List Char := keyTempName ++ [':']

/-- `"PRESSURE:"` as matched by the validation regex. -/
def keyPressure : List Char := keyPressName ++ [':']

/-- `"SPEED:"` as matched by the validation regex. -/
def keySpeed : List Char := keySpeedName ++ [':']

/-- One `KEY:[\d.]+` step of the validation regex: the literal key
(including its colon) followed by a nonempty run of digits/dots. -/
def afterKeyNum (key : List Char) (s : List Char) : Option (List Char) :=
  (dropLit key s).bind fun s1 => (scanNum s1).bind fun ns => some ns.2

/-- One `,\s*` step of the validation regex: a comma, then any whitespace. -/
def stepComma (s : List Char) : Option (List Char) :=
  (dropLit [','] s).bind fun s1 => some (s1.dropWhile pyWs)

/-- The anchored validation regex
`^TEMPERATURE:[\d.]+,\s*PRESSURE:[\d.]+,\s*SPEED:[\d.]+$` of
`_validate_data`, as a deterministic scan (every regex class is disjoint
from the literal that follows it, so the greedy match is deterministic). -/
def validateScan (d : List Char) : Option Unit :=
  (afterKeyNum keyTemperature d).bind fun s1 =>
  (stepComma s1).bind fun s2 =>
  (afterKeyNum keyPressure s2).bind fun s3 =>
  (stepComma s3).bind fun s4 =>
  (afterKeyNum keySpeed s4).bind fun s5 =>
  if s5.isEmpty then some () else none

/-- `PLCDataReader._validate_data`: strip the line, then match the anchored
regex. -/
def validate_data (s : String) : Bool :=
  (validateScan (stripChars s.toList)).isSome

/-- The `SensorReading` dataclass.  `timestamp` is the parse time
(`datetime.now()`), passed in as a parameter of the parse. -/
structure SensorReading where
  temperature : ℚ
  pressure : ℚ
  speed : ℚ
  timestamp : ℚ
  raw_data : String
  deriving DecidableEq

/-- The dictionary-building loop of `_parse_sensor_data`: for each
comma-separated part that contains a colon, split at the first colon,
lower-case and strip the key, `float` the stripped value (a `ValueError`
aborts the whole parse, modelled as `none`), and assign into the dict
(newest binding first). -/
def buildSensors : List (List Char) → List (List Char × ℚ) →
    Option (List (List Char × ℚ))
  | [], acc => some acc
  | part :: parts, acc =>
    let p := stripChars part
    match splitFirstChar ':' p with
    | none => buildSensors parts acc
    | some (k, v) =>
      match pyFloat (stripChars v) with
      | none => none
      | some q => buildSensors parts ((toLowerChars (stripChars k), q) :: acc)

/-- Python dict lookup on the accumulated bindings (newest binding wins). -/
def lookupKey (k : List Char) : List (List Char × ℚ) → Option ℚ
  | [] => none
  | (k2, v) :: rest => if k2 = k then some v else lookupKey k rest

/-- `PLCDataReader._parse_sensor_data`: strip, validate against the regex,
split on commas, build the key/value dict, and read the three required
keys.  A float error or a missing key raises inside the `try`, which the
handler converts to `None`. -/
def parse_sensor_data (now : ℚ) (data : String) : Option SensorReading :=
  let d := stripChars data.toList
  if validate_data (String.mk d) = false then none
  else
    match buildSensors (splitOnChar ',' d) [] with
    | none => none
    | some sensors =>
      match lookupKey "temperature".toList sensors,
            lookupKey "pressure".toList sensors,
            lookupKey "speed".toList sensors with
      | some t, some p, some sp => some ⟨t, p, sp, now, String.mk d⟩
      | _, _, _ => none

/-- Modelled from the spec: a base-10 floating-point numeral of the wire
format — an integer part, optionally followed by a dot and a fractional
part, with at least one digit in total (integers are the special case with
no fractional digits). -/
def specNumVal (n : List Char) : Option ℚ :=
  let i := n.takeWhile Char.isDigit
  match n.dropWhile Char.isDigit with
  | [] => if i.isEmpty then none else some ((natOfDigits i : ℚ))
  | '.' :: f =>
    if f.all Char.isDigit && !(i.isEmpty && f.isEmpty) then
      some ((natOfDigits i : ℚ) + (natOfDigits f : ℚ) / 10 ^ f.length)
    else none
  | _ => none

/-- Modelled from the spec: one field `KEY:numeric-value` of the wire
format — the literal key with its colon, then a numeral. -/
def wireField (key : List Char) (f : List Char) : Option ℚ :=
  (dropLit key f).bind specNumVal

/-- Modelled from the spec's wire format:
`TEMPERATURE:<number>,PRESSURE:<number>,SPEED:<number>` — three required
comma-separated fields in this order, whitespace tolerated after commas,
line terminators and surrounding whitespace stripped.  Returns the three
transmitted numeric values. -/
def wireParse (s : String) : Option (ℚ × ℚ × ℚ) :=
  match splitOnChar ',' (stripChars s.toList) with
  | [f1, f2, f3] =>
    match wireField keyTemperature f1,
          wireField keyPressure (f2.dropWhile pyWs),
          wireField keySpeed (f3.dropWhile pyWs) with
    | some t, some p, some v => some (t, p, v)
    | _, _, _ => none
  | _ => none

/-- The decomposition of a line accepted by the validation regex: the three
upper-case keys in fixed order, each followed by a nonempty run of
digits/dots, the fields separated by a comma and optional whitespace. -/
def Decomp (d n1 w2 n2 w3 n3 : List Char) : Prop :=
  d = keyTemperature ++ n1 ++ [','] ++ w2 ++ keyPressure ++ n2 ++ [','] ++
      w3 ++ keySpeed ++ n3 ∧
  (n1 ≠ [] ∧ ∀ c ∈ n1, isDigitDot c = true) ∧
  (n2 ≠ [] ∧ ∀ c ∈ n2, isDigitDot c = true) ∧
  (n3 ≠ [] ∧ ∀ c ∈ n3, isDigitDot c = true) ∧
  (∀ c ∈ w2, pyWs c = true) ∧ (∀ c ∈ w3, pyWs c = true)

/-- The configuration values `__init__` looks up under
`config['reader']['health']`, each `Option` because `.get(key, default)`
supplies a default when the key is absent.  `history_capacity` is the
history-capacity entry the spec's configuration section describes; it is
listed here as external input, but `__init__` never reads it. -/
structure Config where
  max_silence_time : Option ℚ := none
  check_interval : Option ℚ := none
  connection_retry_interval : Option ℚ := none
  history_capacity : Option ℕ := none

/-- The mutable fields of a `PLCDataReader` object that the verified claims
concern.  `data_history` carries its deque's `maxlen` alongside
(`history_maxlen`).  `serial_connection` is `none` when the attribute is
`None`, otherwise `some b` with `b` the handle's `is_open`.
`live_handles` is a ghost counter of open OS-level handles, including any
handle whose reference was dropped without `close()`. -/
structure State where
  last_reading : Option SensorReading
  last_reading_timestamp : Option ℚ
  last_data_received : Option ℚ
  data_history : List SensorReading
  history_maxlen : ℕ
  is_connected : Bool
  serial_connection : Option Bool
  live_handles : ℕ
  max_silence_time : ℚ
  deriving DecidableEq

/-- `PLCDataReader.__init__`: empty storage, `deque(maxlen=100)` (the
literal 100 — no configuration key is consulted for it), not connected,
`max_silence_time` from the health config with default 10. -/
def initState (cfg : Config) : State :=
  { last_reading := none
    last_reading_timestamp := none
    last_data_received := none
    data_history := []
    history_maxlen := 100
    is_connected := false
    serial_connection := none
    live_handles := 0
    max_silence_time := cfg.max_silence_time.getD 10 }

/-- Keep the last `n` elements of a list (what a bounded deque retains). -/
def keepLast (n : ℕ) (l : List α) : List α := l.drop (l.length - n)

/-- `deque(maxlen=m).append(x)`: append on the right; once `m` elements are
held the leftmost is evicted. -/
def dequeAppend (maxlen : ℕ) (xs : List α) (x : α) : List α :=
  keepLast maxlen (xs ++ [x])

/-- `PLCDataReader._store_reading`: set the most-recent slot and both
timestamps, and append to the bounded history. -/
def store_reading (st : State) (r : SensorReading) : State :=
  { st with
    last_reading := some r
    last_reading_timestamp := some r.timestamp
    last_data_received := some r.timestamp
    data_history := dequeAppend st.history_maxlen st.data_history r }

/-- The possible outcomes of `serial.Serial(...)` in `_connect_serial`:
the constructor raises (`err`), or it returns an open handle (`ok`), or it
returns a handle whose `is_open` is false (`okClosed`, the code's `else`
branch). -/
inductive ConnectOutcome
  | ok
  | okClosed
  | err
  deriving DecidableEq

/-- `PLCDataReader._connect_serial`: on success the new open handle is
assigned to `serial_connection` and `is_connected` is set — the previous
handle, if any, is dropped without being closed (so an open one stays in
`live_handles`).  On a raise nothing changes; on a closed handle the
handle is assigned but `is_connected` is untouched. -/
def connect_serial (st : State) (o : ConnectOutcome) : State :=
  match o with
  | .ok =>
    { st with
      serial_connection := some true
      is_connected := true
      live_handles := st.live_handles + 1 }
  | .okClosed => { st with serial_connection := some false }
  | .err => st

/-- `PLCDataReader._disconnect_serial`: close the handle if one is held and
open, then unconditionally clear `serial_connection` and `is_connected`. -/
def disconnect_serial (st : State) : State :=
  { st with
    live_handles :=
      if st.serial_connection = some true then st.live_handles - 1
      else st.live_handles
    serial_connection := none
    is_connected := false }

/-- The health-check loop marking the reader disconnected
(`self.is_connected = False`) on silence timeout or when no data was ever
received, and the reader loop doing the same on an I/O fault. -/
def mark_disconnected (st : State) : State :=
  { st with is_connected := false }

/-- `PLCDataReader.get_last_reading`. -/
def get_last_reading (st : State) : Option SensorReading :=
  st.last_reading

/-- Python slice `l[i:]` for an integer `i` (negative counts from the
end, clamped). -/
def pySliceFrom (l : List α) (i : ℤ) : List α :=
  l.drop (if i < 0 then max 0 ((l.length : ℤ) + i) else
      min (l.length : ℤ) i).toNat

/-- `PLCDataReader.get_data_history(limit)`: `if limit:` is Python
truthiness — `None` and `0` both take the no-limit branch; otherwise the
slice `list(self.data_history)[-limit:]`. -/
def get_data_history (st : State) (limit : Option ℤ) : List SensorReading :=
  match limit with
  | none => st.data_history
  | some k =>
    if k ≠ 0 then pySliceFrom st.data_history (-k)
    else st.data_history

/-- `PLCDataReader.is_healthy` at wall-clock time `now`: false when not
connected or no data was ever received, else compare the data age with the
silence threshold. -/
def is_healthy (st : State) (now : ℚ) : Bool :=
  if !st.is_connected || st.last_data_received.isNone then false
  else
    match st.last_data_received with
    | some t => decide (now - t ≤ st.max_silence_time)
    | none => false

/-- One processed line of `_read_serial_data`'s inner loop: strip, skip if
empty, parse, and store on success (a parse failure is logged and
dropped). -/
def process_line (now : ℚ) (st : State) (line : List Char) : State :=
  let l := stripChars line
  if l.isEmpty then st
  else
    match parse_sensor_data now (String.mk l) with
    | some r => store_reading st r
    | none => st

/-- The `while '\n' in buffer` loop of `_read_serial_data`: repeatedly
split off the part before the first newline, process it as a line, and
keep the remainder as the new buffer. -/
def drain_buffer (now : ℚ) (st : State) (l : List Char) : State × List Char :=
  match h : splitFirstChar '\n' l with
  | none => (st, l)
  | some (line, rest) => drain_buffer now (process_line now st line) rest
termination_by l.length
decreasing_by
  have key : ∀ (m : List Char) a b,
      splitFirstChar '\n' m = some (a, b) → b.length < m.length := by
    intro m
    induction m with
    | nil => intro a b hab; simp [splitFirstChar] at hab
    | cons c cs ih =>
      intro a b hab
      by_cases hc : c == '\n'
      · simp only [splitFirstChar, hc, if_pos] at hab
        cases hab
        simp
      · simp only [splitFirstChar, hc, if_neg, Bool.false_eq_true,
          not_false_iff] at hab
        rcases h2 : splitFirstChar '\n' cs with _ | ⟨a2, b2⟩
        · rw [h2] at hab; simp at hab
        · rw [h2] at hab
          simp at hab
          have := ih a2 b2 h2
          rw [← hab.2]
          simp
          omega
  exact key l line rest h

/-- One iteration of `_read_serial_data` after bytes arrive: append the
newly read data to the carried buffer, then extract and process every
complete line, returning the updated state and the leftover buffer. -/
def read_serial_chunk (now : ℚ) (st : State) (buf : List Char)
    (data : List Char) : State × List Char :=
  drain_buffer now st (buf ++ data)

/-- The trailing segment of a buffer after its last newline (the whole
buffer when it has no newline). -/
def afterLastNL (l : List Char) : List Char :=
  (l.reverse.takeWhile (fun c => c != '\n')).reverse

/-- The state-mutating events of the reader: a stored reading, a
`_connect_serial` call with its outcome, a `_disconnect_serial` call, and
the health/reader loops flipping `is_connected` off. -/
inductive Ev
  | store (r : SensorReading)
  | connect (o : ConnectOutcome)
  | disconnect
  | markDisc

/-- The states the program can reach, indexed by the trace of events
(newest first).  `connect` carries the hypothesis that no handle is held:
`_connect_serial` is invoked only from `start()` (a fresh or stopped
object, where `serial_connection` is `None`) and from the health loop
immediately after `_disconnect_serial` (which always sets it to `None`). -/
inductive Reachable : List Ev → State → Prop
  | init (cfg : Config) : Reachable [] (initState cfg)
  | store {tr st} (r : SensorReading) :
      Reachable tr st → Reachable (.store r :: tr) (store_reading st r)
  | connect {tr st} (o : ConnectOutcome) :
      Reachable tr st → st.serial_connection = none →
      Reachable (.connect o :: tr) (connect_serial st o)
  | disconnect {tr st} :
      Reachable tr st → Reachable (.disconnect :: tr) (disconnect_serial st)
  | markDisc {tr st} :
      Reachable tr st → Reachable (.markDisc :: tr) (mark_disconnected st)

/-- The timestamp of the most recent `store` event of a trace. -/
def lastStoreTime : List Ev → Option ℚ
  | [] => none
  | .store r :: _ => some r.timestamp
  | _ :: rest => lastStoreTime rest

/-- The `ReadingStore` invariant of the spec: the most-recent slot, if
present, equals the last element of the history, and the history never
exceeds the capacity (100). -/
def storeInv (st : State) : Prop :=
  (∀ r, st.last_reading = some r → st.data_history.getLast? = some r) ∧
  st.data_history.length ≤ 100

/-- A default configuration (every key absent). -/
def cfgDefault : Config := {}

/-- A configuration whose history-capacity entry is 2. -/
def cfgCap2 : Config := { history_capacity := some 2 }

/-- Concrete readings for witnesses and counterexamples. -/
def wr0 : SensorReading := ⟨0, 0, 0, 0, ""⟩

def wrA : SensorReading := ⟨1, 0, 0, 0, "a"⟩

def wrB : SensorReading := ⟨2, 0, 0, 0, "b"⟩

def wrC : SensorReading := ⟨3, 0, 0, 0, "c"⟩

/-- The two chunks of the torn-write scenario. -/
def chunkA : List Char := "TEMPERATURE:1,PRE".toList

def chunkB : List Char := "SSURE:2,SPEED:3\n".toList

/-- The complete line the two chunks assemble to. -/
def lineC : List Char := "TEMPERATURE:1,PRESSURE:2,SPEED:3".toList

/-- A concrete state holding two readings. -/
def stW : State := store_reading (store_reading (initState cfgDefault) wrA) wrB

/-! ## Helper lemmas about the bounded history -/

theorem keepLast_of_le (n : ℕ) (l : List α) (h : l.length ≤ n) :
    keepLast n l = l := by
  simp [keepLast, Nat.sub_eq_zero_of_le h]

theorem keepLast_length (n : ℕ) (l : List α) : (keepLast n l).length ≤ n := by
  simp [keepLast]
  omega

theorem keepLast_rev (n : ℕ) (l : List α) :
    keepLast n l = (l.reverse.take n).reverse := by
  rw [keepLast, List.take_reverse, List.reverse_reverse]

theorem take_append_take (n : ℕ) (y z : List α) :
    (y ++ z.take n).take n = (y ++ z).take n := by
  rcases le_or_lt n y.length with h | h
  · rw [List.take_append_of_le_length h, List.take_append_of_le_length h]
  · have hy : n = y.length + (n - y.length) := by omega
    rw [hy, List.take_append, List.take_append, List.take_take]
    congr 2
    omega

theorem keepLast_absorb (n : ℕ) (a b : List α) :
    keepLast n (keepLast n a ++ b) = keepLast n (a ++ b) := by
  rw [keepLast_rev n a, keepLast_rev, keepLast_rev n (a ++ b)]
  rw [List.reverse_append, List.reverse_reverse, List.reverse_append]
  rw [take_append_take]

theorem dequeAppend_getLast (m : ℕ) (hm : 0 < m) (xs : List α) (x : α) :
    (dequeAppend m xs x).getLast? = some x := by
  rw [dequeAppend, keepLast_rev]
  rcases m with _ | k
  · omega
  · rw [List.reverse_append]
    simp only [List.reverse_cons, List.reverse_nil, List.nil_append,
      List.cons_append, List.take_succ_cons, List.reverse_cons]
    exact List.getLast?_concat _

theorem foldl_store_history (rs : List SensorReading) :
    ∀ st : State, st.history_maxlen = 100 → st.data_history.length ≤ 100 →
      (rs.foldl store_reading st).data_history =
        keepLast 100 (st.data_history ++ rs) := by
  induction rs with
  | nil =>
    intro st _ hlen
    simpa using (keepLast_of_le 100 st.data_history hlen).symm
  | cons r rs ih =>
    intro st hm hlen
    rw [List.foldl_cons]
    rw [ih (store_reading st r) (by simp [store_reading, hm])
      (by simp [store_reading, hm]; exact keepLast_length _ _)]
    simp only [store_reading, hm]
    rw [dequeAppend, keepLast_absorb]
    simp

theorem foldl_store_last (rs : List SensorReading) (h : rs ≠ []) :
    ∀ st : State, (rs.foldl store_reading st).last_reading = rs.getLast? := by
  induction rs with
  | nil => exact absurd rfl h
  | cons r rs ih =>
    intro st
    rcases rs with _ | ⟨r2, rest⟩
    · simp [store_reading]
    · rw [List.foldl_cons, ih (by simp), List.getLast?_cons_cons]

/-! ## C2 — append-monotonic record -/

/-- C2: after `N > 100` (the capacity) successful `_store_reading` calls
starting from a fresh reader, `get_data_history` with no limit returns
exactly the last 100 readings in recording order (oldest first), and
`get_last_reading` is the final recorded reading. -/
theorem c2_append_monotonic (cfg : Config) (rs : List SensorReading)
    (h : 100 < rs.length) :
    get_data_history (rs.foldl store_reading (initState cfg)) none =
      rs.drop (rs.length - 100) ∧
    get_last_reading (rs.foldl store_reading (initState cfg)) = rs.getLast? := by
  constructor
  · have hh := foldl_store_history rs (initState cfg) rfl (by simp [initState])
    show (rs.foldl store_reading (initState cfg)).data_history = _
    rw [hh]
    simp [initState, keepLast]
  · exact foldl_store_last rs (by rintro rfl; simp at h) (initState cfg)

theorem c2_witness :
    100 < (List.replicate 101 wr0).length ∧
    get_data_history
        ((List.replicate 101 wr0).foldl store_reading (initState cfgDefault))
        none =
      (List.replicate 101 wr0).drop ((List.replicate 101 wr0).length - 100) ∧
    get_last_reading
        ((List.replicate 101 wr0).foldl store_reading (initState cfgDefault)) =
      (List.replicate 101 wr0).getLast? :=
  ⟨by simp, (c2_append_monotonic cfgDefault _ (by simp)).1,
    (c2_append_monotonic cfgDefault _ (by simp)).2⟩

/-! ## C8 — the history capacity is not configurable -/

/-- C8 counterexample: with a configuration whose history-capacity entry is
2, three stored readings are all retained — nothing is evicted at size 2,
because `__init__` creates `deque(maxlen=100)` without consulting the
configuration. -/
theorem c8_cex :
    ([wrA, wrB, wrC].foldl store_reading (initState cfgCap2)).data_history =
      [wrA, wrB, wrC] := by
  decide

/-- C8 (amended): the history capacity is the literal 100 for every
configuration — the configured history-capacity entry is ignored, and the
store keeps exactly the last 100 readings. -/
theorem c8_capacity_fixed (cfg : Config) (rs : List SensorReading) :
    (initState cfg).history_maxlen = 100 ∧
    (rs.foldl store_reading (initState cfg)).data_history =
      rs.drop (rs.length - 100) := by
  refine ⟨rfl, ?_⟩
  have hh := foldl_store_history rs (initState cfg) rfl (by simp [initState])
  simpa [initState, keepLast] using hh

/-! ## C7 — the ReadingStore invariant -/

theorem reachable_maxlen (tr : List Ev) (st : State) (h : Reachable tr st) :
    st.history_maxlen = 100 := by
  induction h with
  | init cfg => rfl
  | store r _ ih => simpa [store_reading] using ih
  | connect o _ _ ih => cases o <;> simpa [connect_serial] using ih
  | disconnect _ ih => simpa [disconnect_serial] using ih
  | markDisc _ ih => simpa [mark_disconnected] using ih

theorem storeInv_store (st : State) (hm : st.history_maxlen = 100)
    (r : SensorReading) : storeInv (store_reading st r) := by
  constructor
  · intro r2 h2
    simp only [store_reading] at h2 ⊢
    cases h2
    rw [hm]
    exact dequeAppend_getLast 100 (by norm_num) _ _
  · simp only [store_reading, hm]
    exact keepLast_length _ _

/-- C7: in every reachable state the `ReadingStore` invariant holds, and
every further `_store_reading` call preserves it: when the most-recent slot
is present it equals the last element of the history, and the history never
exceeds the capacity 100. -/
theorem c7_store_invariant (tr : List Ev) (st : State) (h : Reachable tr st) :
    storeInv st ∧ ∀ r, storeInv (store_reading st r) := by
  refine ⟨?_, fun r => storeInv_store st (reachable_maxlen tr st h) r⟩
  induction h with
  | init cfg =>
    exact ⟨by intro r hr; simp [initState] at hr, by simp [initState]⟩
  | store r hr ih => exact storeInv_store _ (reachable_maxlen _ _ hr) r
  | connect o _ _ ih =>
    cases o <;> simpa [storeInv, connect_serial] using ih
  | disconnect _ ih => simpa [storeInv, disconnect_serial] using ih
  | markDisc _ ih => simpa [storeInv, mark_disconnected] using ih

theorem c7_witness :
    (store_reading (initState cfgDefault) wr0).data_history.getLast? =
      some wr0 :=
  ((c7_store_invariant [] (initState cfgDefault)
    (Reachable.init cfgDefault)).2 wr0).1 wr0 rfl

/-! ## C3 — health is a derived predicate -/

theorem reachable_lastData (tr : List Ev) (st : State) (h : Reachable tr st) :
    st.last_data_received = lastStoreTime tr ∧
    st.last_reading_timestamp = lastStoreTime tr := by
  induction h with
  | init cfg => exact ⟨rfl, rfl⟩
  | store r _ ih => simp [store_reading, lastStoreTime]
  | connect o _ _ ih => cases o <;> simpa [connect_serial, lastStoreTime] using ih
  | disconnect _ ih => simpa [disconnect_serial, lastStoreTime] using ih
  | markDisc _ ih => simpa [mark_disconnected, lastStoreTime] using ih

/-- C3: in every reachable state, `is_healthy` holds exactly when the
connected flag is set, at least one reading has ever been recorded (a
`store` event occurred, with timestamp `t`), and `now - t` is within the
silence threshold; in particular it is false whenever no reading was ever
recorded, connected or not. -/
theorem c3_health_derived (tr : List Ev) (st : State) (h : Reachable tr st)
    (now : ℚ) :
    (is_healthy st now = true ↔
      (st.is_connected = true ∧ ∃ t, lastStoreTime tr = some t ∧
        now - t ≤ st.max_silence_time)) ∧
    (lastStoreTime tr = none → is_healthy st now = false) := by
  have hld := (reachable_lastData tr st h).1
  constructor
  · rw [is_healthy, hld]
    cases hlt : lastStoreTime tr with
    | none => simp
    | some t => cases hc : st.is_connected <;> simp [hc]
  · intro hnone
    rw [is_healthy, hld, hnone]
    simp

theorem c3_witness :
    is_healthy (connect_serial (initState cfgDefault) ConnectOutcome.ok) 0 =
      false :=
  (c3_health_derived [Ev.connect ConnectOutcome.ok] _
    (Reachable.connect ConnectOutcome.ok (Reachable.init cfgDefault) rfl)
    0).2 rfl

/-! ## C9 — at most one live handle -/

theorem reachable_handles (tr : List Ev) (st : State) (h : Reachable tr st) :
    st.live_handles ≤ 1 ∧
    (st.serial_connection ≠ some true → st.live_handles = 0) := by
  induction h with
  | init cfg => simp [initState]
  | store r hr ih => simpa [store_reading] using ih
  | connect o hr hnone ih =>
    rename_i tr0 st0
    have h0 : st0.live_handles = 0 := ih.2 (by rw [hnone]; simp)
    cases o <;> simp [connect_serial, h0]
  | disconnect hr ih =>
    rename_i tr0 st0
    rcases hs : st0.serial_connection with _ | b
    · have h0 := ih.2 (by rw [hs]; simp)
      simp [disconnect_serial, hs, h0]
    · rcases b with _ | _
      · have h0 := ih.2 (by rw [hs]; simp)
        simp [disconnect_serial, hs, h0]
      · have h1 := ih.1
        refine ⟨?_, fun _ => ?_⟩ <;>
          · simp only [disconnect_serial, hs, if_pos]
            omega
  | markDisc hr ih => simpa [mark_disconnected] using ih

/-- C9 counterexample: `_connect_serial` does not first close an already
open handle — calling it twice in a row leaves two live handles, the first
one leaked without a `close()`. -/
theorem c9_cex :
    (connect_serial (connect_serial (initState cfgDefault) ConnectOutcome.ok)
      ConnectOutcome.ok).live_handles = 2 := rfl

/-- C9 (amended): `_connect_serial` itself does not close a prior handle,
but every program call site invokes it with no handle held (`start()` runs
on a fresh or stopped object, and the health loop calls
`_disconnect_serial` first), so along the program's call sequences no
reachable state has two live handles. -/
theorem c9_single_live_handle (tr : List Ev) (st : State)
    (h : Reachable tr st) : st.live_handles ≤ 1 :=
  (reachable_handles tr st h).1

theorem c9_witness :
    (connect_serial (initState cfgDefault) ConnectOutcome.ok).live_handles ≤
      1 :=
  c9_single_live_handle [Ev.connect ConnectOutcome.ok] _
    (Reachable.connect ConnectOutcome.ok (Reachable.init cfgDefault) rfl)

/-! ## C10 — the zero-limit history query -/

/-- C10: `get_data_history` with limit 0 returns the entire history (the
guard tests Python truthiness, and `0` is falsy), and with a positive limit
`k` not exceeding the history size it returns exactly the last `k`
readings, oldest first. -/
theorem c10_zero_limit (st : State) :
    get_data_history st (some 0) = st.data_history ∧
    ∀ k : ℕ, 0 < k → k ≤ st.data_history.length →
      get_data_history st (some (k : ℤ)) =
        st.data_history.drop (st.data_history.length - k) := by
  constructor
  · simp [get_data_history]
  · intro k hk hle
    have hne : (k : ℤ) ≠ 0 := by exact_mod_cast Nat.pos_iff_ne_zero.mp hk
    simp only [get_data_history, hne, if_pos, ne_eq, not_false_iff, if_true,
      pySliceFrom]
    congr 1
    have hlt : -(k : ℤ) < 0 := by omega
    rw [if_pos hlt]
    omega

theorem c10_witness :
    get_data_history stW (some ((1 : ℕ) : ℤ)) =
      stW.data_history.drop (stW.data_history.length - 1) :=
  (c10_zero_limit stW).2 1 (by norm_num) (by decide)

/-! ## C6 — partial lines are buffered across reads -/

theorem takeWhile_all {p : α → Bool} {x : List α}
    (h : ∀ c ∈ x, p c = true) : x.takeWhile p = x := by
  induction x with
  | nil => rfl
  | cons d ds ih =>
    rw [List.takeWhile_cons, h d (by simp),
      ih (fun c hc => h c (by simp [hc]))]
    simp

theorem takeWhile_append_stop {p : α → Bool} {c : α} (hc : p c = false) :
    ∀ x y : List α, (x ++ c :: y).takeWhile p = x.takeWhile p := by
  intro x y
  induction x with
  | nil => simp [List.takeWhile_cons, hc]
  | cons d ds ih =>
    rw [List.cons_append, List.takeWhile_cons, List.takeWhile_cons]
    cases p d <;> simp [ih]

theorem splitFC_none {sep : Char} {l : List Char}
    (h : splitFirstChar sep l = none) : sep ∉ l := by
  induction l with
  | nil => simp
  | cons c cs ih =>
    rw [splitFirstChar] at h
    by_cases hc : c == sep
    · simp [hc] at h
    · rcases h2 : splitFirstChar sep cs with _ | ⟨a, b⟩
      · simp only [List.mem_cons, not_or]
        exact ⟨by simpa using Ne.symm (by simpa using hc), ih h2⟩
      · rw [h2] at h
        simp [hc] at h

theorem splitFC_some {sep : Char} : ∀ {l a b : List Char},
    splitFirstChar sep l = some (a, b) → l = a ++ sep :: b ∧ sep ∉ a := by
  intro l
  induction l with
  | nil => intro a b h; simp [splitFirstChar] at h
  | cons c cs ih =>
    intro a b h
    rw [splitFirstChar] at h
    by_cases hc : c == sep
    · simp only [hc, if_pos, Option.some.injEq, Prod.mk.injEq] at h
      obtain ⟨ha, hb⟩ := h
      subst ha
      subst hb
      refine ⟨?_, by simp⟩
      have hcs : c = sep := by simpa using hc
      rw [hcs]
      rfl
    · rcases h2 : splitFirstChar sep cs with _ | ⟨a2, b2⟩
      · rw [h2] at h; simp [hc] at h
      · rw [h2] at h
        simp only [hc, if_neg, Bool.false_eq_true, not_false_iff,
          Option.some.injEq, Prod.mk.injEq] at h
        obtain ⟨ha, hb⟩ := h
        obtain ⟨hdec, hmem⟩ := ih h2
        subst ha hb
        constructor
        · rw [hdec]; rfl
        · simp only [List.mem_cons, not_or]
          exact ⟨fun hceq => hc (by simp [hceq]), hmem⟩

theorem drain_buffer_eqn (now : ℚ) (st : State) (l : List Char) :
    drain_buffer now st l =
      match splitFirstChar '\n' l with
      | none => (st, l)
      | some (line, rest) =>
          drain_buffer now (process_line now st line) rest := by
  rw [drain_buffer]
  rcases h : splitFirstChar '\n' l with _ | ⟨a, b⟩ <;> simp

theorem afterLastNL_append (a b : List Char) :
    afterLastNL (a ++ '\n' :: b) = afterLastNL b := by
  unfold afterLastNL
  rw [List.reverse_append, List.reverse_cons]
  rw [List.append_assoc, List.singleton_append]
  rw [takeWhile_append_stop (by simp)]

theorem afterLastNL_of_no_nl {l : List Char} (h : '\n' ∉ l) :
    afterLastNL l = l := by
  unfold afterLastNL
  rw [takeWhile_all, List.reverse_reverse]
  intro c hc
  simp only [bne_iff_ne, ne_eq, decide_eq_true_eq]
  intro hceq
  exact h (by simpa [hceq] using (List.mem_reverse.mp hc))

theorem drain_snd : ∀ (n : ℕ) (l : List Char), l.length ≤ n →
    ∀ (now : ℚ) (st : State), (drain_buffer now st l).2 = afterLastNL l := by
  intro n
  induction n with
  | zero =>
    intro l hlen now st
    have : l = [] := List.length_eq_zero.mp (Nat.le_zero.mp hlen)
    subst this
    rw [drain_buffer_eqn]
    rfl
  | succ n ih =>
    intro l hlen now st
    rw [drain_buffer_eqn]
    rcases hsp : splitFirstChar '\n' l with _ | ⟨a, b⟩
    · exact (afterLastNL_of_no_nl (splitFC_none hsp)).symm
    · obtain ⟨hdec, _⟩ := splitFC_some hsp
      have hb : b.length ≤ n := by
        have := congrArg List.length hdec
        simp at this
        omega
      rw [ih b hb now (process_line now st a), hdec, afterLastNL_append]

/-- C6: the reader loop holds partial lines across reads.  In general the
loop leaves exactly the text after the last newline in the buffer (only
complete newline-terminated lines are extracted from the front).  For the
stream delivered as `"TEMPERATURE:1,PRE"` then `"SSURE:2,SPEED:3\n"`: after
the first chunk nothing is recorded and the whole chunk stays buffered;
after the second chunk exactly one reading — the parse of the reassembled
line — is recorded. -/
theorem c6_torn_write :
    (∀ (now : ℚ) (st : State) (l : List Char),
      (drain_buffer now st l).2 = afterLastNL l) ∧
    (read_serial_chunk 0 (initState cfgDefault) [] chunkA).1.data_history =
      [] ∧
    (read_serial_chunk 0 (initState cfgDefault) [] chunkA).1.last_reading =
      none ∧
    (read_serial_chunk 0 (initState cfgDefault) [] chunkA).2 = chunkA ∧
    (read_serial_chunk 0 (read_serial_chunk 0 (initState cfgDefault) []
          chunkA).1
        (read_serial_chunk 0 (initState cfgDefault) [] chunkA).2
        chunkB).1.data_history =
      [⟨1, 2, 3, 0, "TEMPERATURE:1,PRESSURE:2,SPEED:3"⟩] := by
  have hA : read_serial_chunk 0 (initState cfgDefault) [] chunkA =
      (initState cfgDefault, chunkA) := by
    rw [read_serial_chunk, List.nil_append, drain_buffer_eqn]
    rw [show splitFirstChar '\n' chunkA = none from by decide]
  have hB : read_serial_chunk 0 (initState cfgDefault) chunkA chunkB =
      (process_line 0 (initState cfgDefault) lineC, []) := by
    rw [read_serial_chunk, drain_buffer_eqn]
    rw [show splitFirstChar '\n' (chunkA ++ chunkB) = some (lineC, [])
      from by decide]
    show drain_buffer 0 (process_line 0 (initState cfgDefault) lineC) [] = _
    rw [drain_buffer_eqn]
    rfl
  refine ⟨fun now st l => drain_snd l.length l le_rfl now st, ?_, ?_, ?_, ?_⟩
  · rw [hA]; rfl
  · rw [hA]; rfl
  · rw [hA]
  · rw [hA]
    rw [show (initState cfgDefault, chunkA).1 = initState cfgDefault from rfl,
      show (initState cfgDefault, chunkA).2 = chunkA from rfl, hB]
    with_unfolding_all rfl

/-! ## Character-class and scanner lemmas for the parser claims -/

theorem isDigitDot_not_ws {c : Char} (h : isDigitDot c = true) :
    pyWs c = false := by
  by_contra hws
  have hws2 : pyWs c = true := by revert hws; cases pyWs c <;> simp
  simp only [pyWs, Bool.or_eq_true, beq_iff_eq] at hws2
  rcases hws2 with ((((rfl | rfl) | rfl) | rfl) | rfl) | rfl <;>
    simp [isDigitDot] at h

theorem isDigitDot_ne_comma {c : Char} (h : isDigitDot c = true) : c ≠ ',' := by
  rintro rfl
  simp [isDigitDot] at h

theorem pyWs_ne_comma {c : Char} (h : pyWs c = true) : c ≠ ',' := by
  rintro rfl
  simp [pyWs] at h

theorem head_cond {p : Char → Bool} {u : List Char} {c : Char}
    (h : u.head? = some c) (hc : p c = false) :
    ∀ x ∈ u.head?, p x = false := by
  intro x hx
  rw [h] at hx
  simp only [Option.mem_def, Option.some.injEq] at hx
  subst hx
  exact hc

theorem dropLit_some {lit : List Char} : ∀ {s r : List Char},
    dropLit lit s = some r → s = lit ++ r := by
  induction lit with
  | nil => intro s r h; simpa [dropLit] using h
  | cons c cs ih =>
    intro s r h
    cases s with
    | nil => simp [dropLit] at h
    | cons x xs =>
      rw [dropLit] at h
      by_cases hx : x == c
      · rw [if_pos hx] at h
        have := ih h
        simp [this, show x = c from by simpa using hx]
      · rw [if_neg hx] at h
        exact absurd h (by simp)

theorem dropLit_of_append (lit r : List Char) :
    dropLit lit (lit ++ r) = some r := by
  induction lit with
  | nil => rfl
  | cons c cs ih => simpa [dropLit] using ih

theorem takeWhile_head_false {p : α → Bool} {r : List α}
    (h : ∀ c ∈ r.head?, p c = false) : r.takeWhile p = [] := by
  cases r with
  | nil => rfl
  | cons c cs => simp [List.takeWhile_cons, h c (by simp)]

theorem dropWhile_head_false {p : α → Bool} {r : List α}
    (h : ∀ c ∈ r.head?, p c = false) : r.dropWhile p = r := by
  cases r with
  | nil => rfl
  | cons c cs => simp [List.dropWhile_cons, h c (by simp)]

theorem scanNum_some {s n r : List Char}
    (h : scanNum s = some (n, r)) :
    s = n ++ r ∧ n ≠ [] ∧ ∀ c ∈ n, isDigitDot c = true := by
  rw [scanNum] at h
  cases htw : s.takeWhile isDigitDot with
  | nil => rw [htw] at h; exact absurd h (by simp)
  | cons c cs =>
    rw [htw] at h
    simp only [Option.some.injEq, Prod.mk.injEq] at h
    obtain ⟨h1, h2⟩ := h
    refine ⟨?_, by simp [← h1], ?_⟩
    · rw [← h1, ← h2, ← htw]
      exact (List.takeWhile_append_dropWhile isDigitDot s).symm
    · intro x hx
      rw [← h1] at hx
      exact List.mem_takeWhile_imp (htw ▸ hx)

theorem scanNum_of (n r : List Char) (hn : n ≠ [])
    (hall : ∀ c ∈ n, isDigitDot c = true)
    (hr : ∀ c ∈ r.head?, isDigitDot c = false) :
    scanNum (n ++ r) = some (n, r) := by
  have ht : (n ++ r).takeWhile isDigitDot = n := by
    rw [List.takeWhile_append_of_pos hall, takeWhile_head_false hr,
      List.append_nil]
  have hd : (n ++ r).dropWhile isDigitDot = r := by
    rw [List.dropWhile_append_of_pos hall, dropWhile_head_false hr]
  rw [scanNum, ht, hd]
  cases n with
  | nil => exact absurd rfl hn
  | cons c cs => rfl

theorem afterKeyNum_some {key s r : List Char}
    (h : afterKeyNum key s = some r) :
    ∃ n, s = key ++ (n ++ r) ∧ n ≠ [] ∧ ∀ c ∈ n, isDigitDot c = true := by
  rw [afterKeyNum] at h
  cases h1 : dropLit key s with
  | none => rw [h1] at h; exact absurd h (by simp)
  | some s1 =>
    rw [h1] at h
    simp only [Option.some_bind] at h
    cases h2 : scanNum s1 with
    | none => rw [h2] at h; exact absurd h (by simp)
    | some p =>
      obtain ⟨n, s2⟩ := p
      rw [h2] at h
      simp only [Option.some_bind, Option.some.injEq] at h
      subst h
      obtain ⟨hs1, hn, hall⟩ := scanNum_some h2
      exact ⟨n, by rw [dropLit_some h1, hs1], hn, hall⟩

theorem afterKeyNum_of (key n r : List Char) (hn : n ≠ [])
    (hall : ∀ c ∈ n, isDigitDot c = true)
    (hr : ∀ c ∈ r.head?, isDigitDot c = false) :
    afterKeyNum key (key ++ (n ++ r)) = some r := by
  rw [afterKeyNum, dropLit_of_append]
  simp only [Option.some_bind]
  rw [scanNum_of n r hn hall hr]
  simp

theorem stepComma_some {s r : List Char} (h : stepComma s = some r) :
    ∃ w, s = ',' :: (w ++ r) ∧ ∀ c ∈ w, pyWs c = true := by
  rw [stepComma] at h
  cases h1 : dropLit [','] s with
  | none => rw [h1] at h; exact absurd h (by simp)
  | some s1 =>
    rw [h1] at h
    simp only [Option.some_bind, Option.some.injEq] at h
    refine ⟨s1.takeWhile pyWs, ?_, fun c hc => List.mem_takeWhile_imp hc⟩
    rw [dropLit_some h1, ← h, List.takeWhile_append_dropWhile]
    rfl

theorem stepComma_of (w r : List Char) (hw : ∀ c ∈ w, pyWs c = true)
    (hr : ∀ c ∈ r.head?, pyWs c = false) :
    stepComma (',' :: (w ++ r)) = some r := by
  have h1 : dropLit [','] (',' :: (w ++ r)) = some (w ++ r) := rfl
  rw [stepComma, h1]
  simp only [Option.some_bind]
  rw [List.dropWhile_append_of_pos hw, dropWhile_head_false hr]

theorem head_cond_cons {p : Char → Bool} {c : Char} (hc : p c = false)
    (r : List Char) : ∀ x ∈ (c :: r).head?, p x = false := by
  intro x hx
  simp only [List.head?_cons, Option.mem_def, Option.some.injEq] at hx
  subst hx
  exact hc

theorem head_cond_append {p : Char → Bool} {c : Char} {k : List Char}
    (hk : k.head? = some c) (hc : p c = false) (z : List Char) :
    ∀ x ∈ (k ++ z).head?, p x = false := by
  intro x hx
  rw [List.head?_append, hk] at hx
  simp only [Option.or_some, Option.mem_def, Option.some.injEq] at hx
  subst hx
  exact hc

theorem afterKeyNum_last (key n : List Char) (hn : n ≠ [])
    (hall : ∀ c ∈ n, isDigitDot c = true) :
    afterKeyNum key (key ++ n) = some [] := by
  have h := afterKeyNum_of key n [] hn hall (by simp)
  simpa using h

/-! ## The validation regex accepts exactly the decomposed shape -/

theorem validate_decomp {d : List Char} (h : validateScan d = some ()) :
    ∃ n1 w2 n2 w3 n3, Decomp d n1 w2 n2 w3 n3 := by
  rw [validateScan] at h
  cases h1 : afterKeyNum keyTemperature d with
  | none => rw [h1] at h; exact absurd h (by simp)
  | some s1 =>
  rw [h1] at h
  simp only [Option.some_bind] at h
  cases h2 : stepComma s1 with
  | none => rw [h2] at h; exact absurd h (by simp)
  | some s2 =>
  rw [h2] at h
  simp only [Option.some_bind] at h
  cases h3 : afterKeyNum keyPressure s2 with
  | none => rw [h3] at h; exact absurd h (by simp)
  | some s3 =>
  rw [h3] at h
  simp only [Option.some_bind] at h
  cases h4 : stepComma s3 with
  | none => rw [h4] at h; exact absurd h (by simp)
  | some s4 =>
  rw [h4] at h
  simp only [Option.some_bind] at h
  cases h5 : afterKeyNum keySpeed s4 with
  | none => rw [h5] at h; exact absurd h (by simp)
  | some s5 =>
  rw [h5] at h
  simp only [Option.some_bind] at h
  have hs5 : s5 = [] := by
    cases s5 with
    | nil => rfl
    | cons x xs => simp at h
  subst hs5
  obtain ⟨n1, hd1, hn1, ha1⟩ := afterKeyNum_some h1
  obtain ⟨w2, hs1, hw2⟩ := stepComma_some h2
  obtain ⟨n2, hd2, hn2, ha2⟩ := afterKeyNum_some h3
  obtain ⟨w3, hs3, hw3⟩ := stepComma_some h4
  obtain ⟨n3, hd3, hn3, ha3⟩ := afterKeyNum_some h5
  refine ⟨n1, w2, n2, w3, n3, ?_, ⟨hn1, ha1⟩, ⟨hn2, ha2⟩, ⟨hn3, ha3⟩,
    hw2, hw3⟩
  rw [hd1, hs1, hd2, hs3, hd3]
  simp [List.append_assoc]

theorem decomp_shape {d n1 w2 n2 w3 n3 : List Char}
    (hD : Decomp d n1 w2 n2 w3 n3) :
    d = keyTemperature ++ (n1 ++ (',' :: (w2 ++ (keyPressure ++ (n2 ++
      (',' :: (w3 ++ (keySpeed ++ n3)))))))) := by
  rw [hD.1]
  simp [List.append_assoc]

theorem decomp_validate {d n1 w2 n2 w3 n3 : List Char}
    (hD : Decomp d n1 w2 n2 w3 n3) : validateScan d = some () := by
  obtain ⟨hd, ⟨hn1, ha1⟩, ⟨hn2, ha2⟩, ⟨hn3, ha3⟩, hw2, hw3⟩ := hD
  rw [validateScan,
    decomp_shape ⟨hd, ⟨hn1, ha1⟩, ⟨hn2, ha2⟩, ⟨hn3, ha3⟩, hw2, hw3⟩]
  rw [afterKeyNum_of keyTemperature n1 _ hn1 ha1
    (head_cond_cons (by decide) _)]
  simp only [Option.some_bind]
  rw [stepComma_of w2 _ hw2
    (head_cond_append (show keyPressure.head? = some 'P' from rfl)
      (by decide) _)]
  simp only [Option.some_bind]
  rw [afterKeyNum_of keyPressure n2 _ hn2 ha2
    (head_cond_cons (by decide) _)]
  simp only [Option.some_bind]
  rw [stepComma_of w3 _ hw3
    (head_cond_append (show keySpeed.head? = some 'S' from rfl)
      (by decide) _)]
  simp only [Option.some_bind]
  rw [afterKeyNum_last keySpeed n3 hn3 ha3]
  simp only [Option.some_bind]
  rfl

/-! ## Splitting on commas -/

theorem splitOn_ne_nil (sep : Char) (l : List Char) :
    splitOnChar sep l ≠ [] := by
  induction l with
  | nil => simp [splitOnChar]
  | cons c cs ih =>
    rw [splitOnChar]
    by_cases hc : c == sep
    · simp [hc]
    · rw [if_neg hc]
      cases hsp : splitOnChar sep cs with
      | nil => simp
      | cons p ps => simp

theorem splitOn_cons_of {sep : Char} : ∀ (a rest : List Char), sep ∉ a →
    splitOnChar sep (a ++ sep :: rest) = a :: splitOnChar sep rest := by
  intro a
  induction a with
  | nil =>
    intro rest _
    simp only [List.nil_append]
    rw [splitOnChar]
    simp
  | cons c cs ih =>
    intro rest ha
    have hc : (c == sep) = false := by
      simp only [beq_eq_false_iff_ne, ne_eq]
      exact fun hh => ha (by simp [hh])
    rw [List.cons_append, splitOnChar, if_neg (by simp [hc])]
    rw [ih rest (fun hm => ha (by simp [hm]))]

theorem splitOn_no_sep {sep : Char} : ∀ (a : List Char), sep ∉ a →
    splitOnChar sep a = [a] := by
  intro a
  induction a with
  | nil => intro _; rfl
  | cons c cs ih =>
    intro ha
    have hc : (c == sep) = false := by
      simp only [beq_eq_false_iff_ne, ne_eq]
      exact fun hh => ha (by simp [hh])
    rw [splitOnChar, if_neg (by simp [hc]), ih (fun hm => ha (by simp [hm]))]

theorem splitOn_inv {sep : Char} : ∀ (d : List Char) p ps,
    splitOnChar sep d = p :: ps →
    (ps = [] ∧ d = p) ∨
    ∃ rest, d = p ++ sep :: rest ∧ splitOnChar sep rest = ps := by
  intro d
  induction d with
  | nil =>
    intro p ps h
    rw [splitOnChar] at h
    simp only [List.cons.injEq] at h
    exact Or.inl ⟨h.2.symm, h.1⟩
  | cons c cs ih =>
    intro p ps h
    rw [splitOnChar] at h
    by_cases hc : c == sep
    · rw [if_pos hc] at h
      simp only [List.cons.injEq] at h
      refine Or.inr ⟨cs, ?_, h.2⟩
      rw [← h.1, show c = sep from by simpa using hc]
      rfl
    · rw [if_neg hc] at h
      cases hsp : splitOnChar sep cs with
      | nil => exact absurd hsp (splitOn_ne_nil sep cs)
      | cons p2 ps2 =>
        rw [hsp] at h
        simp only [List.cons.injEq] at h
        obtain ⟨hp, hps⟩ := h
        rcases ih p2 ps2 hsp with ⟨hnil, hcs⟩ | ⟨rest, hcs, hrest⟩
        · subst hnil
          exact Or.inl ⟨hps.symm, by rw [← hp, hcs]⟩
        · refine Or.inr ⟨rest, ?_, by rw [hrest, hps]⟩
          rw [← hp, hcs]
          rfl

theorem splitOn_three {sep : Char} {d a b c : List Char}
    (h : splitOnChar sep d = [a, b, c]) :
    d = a ++ sep :: (b ++ sep :: c) := by
  rcases splitOn_inv d a [b, c] h with ⟨h1, _⟩ | ⟨r1, hd1, h1⟩
  · simp at h1
  · rcases splitOn_inv r1 b [c] h1 with ⟨h2, _⟩ | ⟨r2, hd2, h2⟩
    · simp at h2
    · rcases splitOn_inv r2 c [] h2 with ⟨_, h3⟩ | ⟨r3, _, h3⟩
      · rw [hd1, hd2, h3]
      · exact absurd h3 (splitOn_ne_nil sep r3)

theorem decomp_splitOn {d n1 w2 n2 w3 n3 : List Char}
    (hD : Decomp d n1 w2 n2 w3 n3) :
    splitOnChar ',' d = [keyTemperature ++ n1, w2 ++ (keyPressure ++ n2),
      w3 ++ (keySpeed ++ n3)] := by
  obtain ⟨hd, ⟨hn1, ha1⟩, ⟨hn2, ha2⟩, ⟨hn3, ha3⟩, hw2, hw3⟩ := hD
  have hshape : d = (keyTemperature ++ n1) ++ ',' ::
      ((w2 ++ (keyPressure ++ n2)) ++ ',' :: (w3 ++ (keySpeed ++ n3))) := by
    rw [hd]
    simp [List.append_assoc]
  have hA : ',' ∉ keyTemperature ++ n1 := by
    simp only [List.mem_append, not_or]
    exact ⟨by decide, fun hn => isDigitDot_ne_comma (ha1 ',' hn) rfl⟩
  have hB : ',' ∉ w2 ++ (keyPressure ++ n2) := by
    simp only [List.mem_append, not_or]
    exact ⟨fun hw => pyWs_ne_comma (hw2 ',' hw) rfl,
      by decide, fun hn => isDigitDot_ne_comma (ha2 ',' hn) rfl⟩
  have hC : ',' ∉ w3 ++ (keySpeed ++ n3) := by
    simp only [List.mem_append, not_or]
    exact ⟨fun hw => pyWs_ne_comma (hw3 ',' hw) rfl,
      by decide, fun hn => isDigitDot_ne_comma (ha3 ',' hn) rfl⟩
  rw [hshape, splitOn_cons_of _ _ hA, splitOn_cons_of _ _ hB,
    splitOn_no_sep _ hC]

/-! ## Stripping lemmas -/

theorem head?_dropWhile_false {p : α → Bool} (l : List α) :
    ∀ c ∈ (l.dropWhile p).head?, p c = false := by
  induction l with
  | nil => simp
  | cons d ds ih =>
    rw [List.dropWhile_cons]
    by_cases hd : p d
    · simpa [hd] using ih
    · intro c hc
      rw [if_neg hd] at hc
      simp only [List.head?_cons, Option.mem_def, Option.some.injEq] at hc
      subst hc
      simpa using hd

theorem stripChars_of_clean (w m : List Char) (hw : ∀ c ∈ w, pyWs c = true)
    (h1 : ∀ c ∈ m.head?, pyWs c = false)
    (h2 : ∀ c ∈ m.getLast?, pyWs c = false) :
    stripChars (w ++ m) = m := by
  cases m with
  | nil =>
    rw [List.append_nil, stripChars, trimBack]
    have hrev : w.reverse.dropWhile pyWs = [] := by
      rw [List.dropWhile_eq_nil_iff]
      intro x hx
      exact hw x (List.mem_reverse.mp hx)
    rw [hrev]
    rfl
  | cons c0 m0 =>
    rw [stripChars, trimBack, List.reverse_append]
    have hhead : ∀ x ∈ ((c0 :: m0).reverse ++ w.reverse).head?,
        pyWs x = false := by
      intro x hx
      rw [List.head?_append, List.head?_reverse] at hx
      cases hgl : (c0 :: m0).getLast? with
      | none => rw [List.getLast?_eq_none_iff] at hgl; exact absurd hgl (by simp)
      | some g =>
        rw [hgl] at hx
        simp only [Option.or_some, Option.mem_def, Option.some.injEq] at hx
        subst hx
        exact h2 g (by rw [hgl]; rfl)
    rw [dropWhile_head_false hhead, List.reverse_append, List.reverse_reverse,
      List.reverse_reverse, List.dropWhile_append_of_pos hw,
      dropWhile_head_false h1]

theorem strip_no_ws {m : List Char} (h : ∀ c ∈ m, pyWs c = false) :
    stripChars m = m := by
  have := stripChars_of_clean [] m (by simp)
    (fun c hc => h c (List.mem_of_mem_head? hc))
    (fun c hc => h c (List.mem_of_mem_getLast? hc))
  simpa using this

theorem strip_idem (l : List Char) :
    stripChars (stripChars l) = stripChars l := by
  have h1 : ∀ c ∈ (stripChars l).head?, pyWs c = false := by
    rw [stripChars]
    exact head?_dropWhile_false _
  have h2 : ∀ c ∈ (stripChars l).getLast?, pyWs c = false := by
    intro c hc
    rw [stripChars] at hc
    have hsuf : (trimBack l).dropWhile pyWs <:+ trimBack l :=
      List.dropWhile_suffix pyWs
    obtain ⟨u, hu⟩ := hsuf
    have hc2 : c ∈ (trimBack l).getLast? := by
      rw [← hu, List.getLast?_append]
      simp only [Option.mem_def] at hc
      simp [hc]
    rw [trimBack, List.getLast?_reverse] at hc2
    exact head?_dropWhile_false l.reverse c hc2
  have := stripChars_of_clean [] (stripChars l) (by simp) h1 h2
  simpa using this

theorem splitFC_cons_of {sep : Char} : ∀ (a b : List Char), sep ∉ a →
    splitFirstChar sep (a ++ sep :: b) = some (a, b) := by
  intro a
  induction a with
  | nil =>
    intro b _
    rw [List.nil_append, splitFirstChar]
    simp
  | cons c cs ih =>
    intro b ha
    have hc : (c == sep) = false := by
      simp only [beq_eq_false_iff_ne, ne_eq]
      exact fun hh => ha (by simp [hh])
    rw [List.cons_append, splitFirstChar, if_neg (by simp [hc]),
      ih b (fun hm => ha (by simp [hm]))]

/-! ## The float model agrees with the wire-format numeral grammar -/

theorem count_dot_eq_zero {x : List Char}
    (h : ∀ c ∈ x, Char.isDigit c = true) : x.count '.' = 0 := by
  rw [List.count_eq_zero]
  intro hm
  exact absurd (h '.' hm) (by decide)

theorem any_of_all_digit {x : List Char}
    (h : ∀ c ∈ x, Char.isDigit c = true) :
    x.any Char.isDigit = !x.isEmpty := by
  cases x with
  | nil => rfl
  | cons c cs => simp [h c (by simp)]

theorem pyFloat_eq_specNum {n : List Char}
    (hall : ∀ c ∈ n, isDigitDot c = true) : pyFloat n = specNumVal n := by
  have hn_eq : n = n.takeWhile Char.isDigit ++ n.dropWhile Char.isDigit :=
    (List.takeWhile_append_dropWhile _ _).symm
  have hi : ∀ c ∈ n.takeWhile Char.isDigit, Char.isDigit c = true :=
    fun c hc => List.mem_takeWhile_imp hc
  by_cases hnil : n = []
  · subst hnil; rfl
  cases hr : n.dropWhile Char.isDigit with
  | nil =>
    have htw : n.takeWhile Char.isDigit = n := by
      conv_rhs => rw [hn_eq]
      rw [hr, List.append_nil]
    have hnd : ∀ c ∈ n, Char.isDigit c = true :=
      fun c hc => hi c (htw.symm ▸ hc)
    have hc1 : n.all isDigitDot = true := List.all_eq_true.mpr hall
    have hc2 : n.any Char.isDigit = true := by
      rw [any_of_all_digit hnd]
      simp [hnil]
    have hc3 : n.count '.' = 0 := count_dot_eq_zero hnd
    rw [pyFloat, specNumVal]
    simp only [hr, hc1, hc2, hc3, htw, digitsDotVal]
    simp [hnil, add_zero, List.isEmpty_iff]
  | cons c0 f =>
    have hsuf : n.dropWhile Char.isDigit <:+ n := List.dropWhile_suffix _
    have hc0 : Char.isDigit c0 = false :=
      head?_dropWhile_false n c0 (by rw [hr]; rfl)
    have hc0m : c0 ∈ n := hsuf.subset (by rw [hr]; simp)
    have hdot : c0 = '.' := by
      have hdd := hall c0 hc0m
      simp only [isDigitDot, hc0, Bool.false_or, beq_iff_eq] at hdd
      exact hdd
    subst hdot
    have hf_all : ∀ c ∈ f, isDigitDot c = true := by
      intro c hc
      exact hall c (hsuf.subset (by rw [hr]; simp [hc]))
    by_cases hfd : f.all Char.isDigit = true
    · have hfdd : ∀ c ∈ f, Char.isDigit c = true := List.all_eq_true.mp hfd
      have hcount : n.count '.' = 1 := by
        conv_lhs => rw [hn_eq, hr]
        rw [List.count_append, count_dot_eq_zero hi, List.count_cons,
          count_dot_eq_zero hfdd]
        simp
      have hany : n.any Char.isDigit =
          !((n.takeWhile Char.isDigit).isEmpty && f.isEmpty) := by
        conv_lhs => rw [hn_eq, hr]
        rw [List.any_append, List.any_cons, any_of_all_digit hi,
          any_of_all_digit hfdd]
        simp [Bool.not_and]
      have hc1 : n.all isDigitDot = true := List.all_eq_true.mpr hall
      rw [pyFloat, specNumVal]
      simp only [hr, hc1, hcount, hfd, hany, Bool.true_and, digitsDotVal]
      cases hcc : ((n.takeWhile Char.isDigit).isEmpty && f.isEmpty) <;> simp
    · have hfdB : f.all Char.isDigit = false := by
        cases hx : f.all Char.isDigit
        · rfl
        · exact absurd hx hfd
      have hex : ∃ c ∈ f, Char.isDigit c = false := by
        rcases List.all_eq_false.mp hfdB with ⟨c, hcf, hcd⟩
        exact ⟨c, hcf, by cases hy : Char.isDigit c; rfl; exact absurd hy hcd⟩
      obtain ⟨c1, hc1f, hc1d⟩ := hex
      have hc1dot : c1 = '.' := by
        have hdd := hf_all c1 hc1f
        simp only [isDigitDot, hc1d, Bool.false_or, beq_iff_eq] at hdd
        exact hdd
      subst hc1dot
      have hge : 2 ≤ n.count '.' := by
        conv_rhs => rw [hn_eq, hr]
        rw [List.count_append, List.count_cons]
        have hpos : 0 < f.count '.' := List.count_pos_iff.mpr hc1f
        simp only [beq_self_eq_true, if_pos]
        omega
      have hcnt : ¬ n.count '.' ≤ 1 := by omega
      rw [pyFloat, specNumVal]
      simp only [hr, hfdB]
      simp [hcnt]

/-! ## Decide-level facts about the keys -/

theorem keyT_no_ws : ∀ c ∈ keyTemperature, pyWs c = false := by decide

theorem keyP_no_ws : ∀ c ∈ keyPressure, pyWs c = false := by decide

theorem keyS_no_ws : ∀ c ∈ keySpeed, pyWs c = false := by decide

theorem keyTname_no_ws : ∀ c ∈ keyTempName, pyWs c = false := by decide

theorem keyPname_no_ws : ∀ c ∈ keyPressName, pyWs c = false := by decide

theorem keySname_no_ws : ∀ c ∈ keySpeedName, pyWs c = false := by decide

/-! ## Shape of an accepted wire numeral -/

theorem specNum_shape {n : List Char} {q : ℚ} (h : specNumVal n = some q) :
    n ≠ [] ∧ ∀ c ∈ n, isDigitDot c = true := by
  have hn_eq : n = n.takeWhile Char.isDigit ++ n.dropWhile Char.isDigit :=
    (List.takeWhile_append_dropWhile _ _).symm
  have hi : ∀ c ∈ n.takeWhile Char.isDigit, Char.isDigit c = true :=
    fun c hc => List.mem_takeWhile_imp hc
  simp only [specNumVal] at h
  split at h
  · rename_i heq
    have htw : n.takeWhile Char.isDigit = n := by
      conv_rhs => rw [hn_eq]
      rw [heq, List.append_nil]
    by_cases hie : (n.takeWhile Char.isDigit).isEmpty
    · rw [if_pos hie] at h
      exact absurd h (by simp)
    · constructor
      · intro hnil
        exact hie (by rw [htw, hnil]; rfl)
      · intro c hc
        have := hi c (htw.symm ▸ hc)
        simp [isDigitDot, this]
  · rename_i f heq
    by_cases hcond : (f.all Char.isDigit && !((n.takeWhile Char.isDigit).isEmpty && f.isEmpty)) = true
    · constructor
      · intro hnil
        rw [hnil] at heq
        simp at heq
      · intro c hc
        rw [hn_eq, heq] at hc
        rcases List.mem_append.mp hc with hcm | hcm
        · simp [isDigitDot, hi c hcm]
        · rcases List.mem_cons.mp hcm with rfl | hcm2
          · decide
          · have := List.all_eq_true.mp (Bool.and_elim_left hcond) c hcm2
            simp [isDigitDot, this]
    · rw [if_neg hcond] at h
      exact absurd h (by simp)
  · exact absurd h (by simp)

/-! ## Evaluation of the parser and the wire format on a decomposed line -/

theorem parse_of_decomp {d n1 w2 n2 w3 n3 : List Char} {s : String}
    (hD : Decomp d n1 w2 n2 w3 n3) (hs : stripChars s.toList = d)
    (now : ℚ) :
    parse_sensor_data now s =
      match specNumVal n1, specNumVal n2, specNumVal n3 with
      | some t, some p, some v => some ⟨t, p, v, now, String.mk d⟩
      | _, _, _ => none := by
  obtain ⟨hd, ⟨hn1, ha1⟩, ⟨hn2, ha2⟩, ⟨hn3, ha3⟩, hw2, hw3⟩ := hD
  have hDfull : Decomp d n1 w2 n2 w3 n3 :=
    ⟨hd, ⟨hn1, ha1⟩, ⟨hn2, ha2⟩, ⟨hn3, ha3⟩, hw2, hw3⟩
  have hval : validate_data (String.mk d) = true := by
    rw [validate_data, show (String.mk d).toList = d from rfl, ← hs,
      strip_idem, hs, decomp_validate hDfull]
    rfl
  have hstripA : stripChars (keyTemperature ++ n1) = keyTemperature ++ n1 := by
    apply strip_no_ws
    intro c hc
    rcases List.mem_append.mp hc with hm | hm
    · exact keyT_no_ws c hm
    · exact isDigitDot_not_ws (ha1 c hm)
  have hstripB : stripChars (w2 ++ (keyPressure ++ n2)) =
      keyPressure ++ n2 := by
    apply stripChars_of_clean _ _ hw2
    · exact head_cond_append (show keyPressure.head? = some 'P' from rfl)
        (by decide) _
    · intro c hc
      have hcm : c ∈ keyPressure ++ n2 := List.mem_of_mem_getLast? hc
      rcases List.mem_append.mp hcm with hm | hm
      · exact keyP_no_ws c hm
      · exact isDigitDot_not_ws (ha2 c hm)
  have hstripC : stripChars (w3 ++ (keySpeed ++ n3)) = keySpeed ++ n3 := by
    apply stripChars_of_clean _ _ hw3
    · exact head_cond_append (show keySpeed.head? = some 'S' from rfl)
        (by decide) _
    · intro c hc
      have hcm : c ∈ keySpeed ++ n3 := List.mem_of_mem_getLast? hc
      rcases List.mem_append.mp hcm with hm | hm
      · exact keyS_no_ws c hm
      · exact isDigitDot_not_ws (ha3 c hm)
  have hsplitA : splitFirstChar ':' (keyTemperature ++ n1) =
      some (keyTempName, n1) := by
    rw [show keyTemperature ++ n1 = keyTempName ++ ':' :: n1 from by
      simp [keyTemperature, List.append_assoc]]
    exact splitFC_cons_of keyTempName n1 (by decide)
  have hsplitB : splitFirstChar ':' (keyPressure ++ n2) =
      some (keyPressName, n2) := by
    rw [show keyPressure ++ n2 = keyPressName ++ ':' :: n2 from by
      simp [keyPressure, List.append_assoc]]
    exact splitFC_cons_of keyPressName n2 (by decide)
  have hsplitC : splitFirstChar ':' (keySpeed ++ n3) =
      some (keySpeedName, n3) := by
    rw [show keySpeed ++ n3 = keySpeedName ++ ':' :: n3 from by
      simp [keySpeed, List.append_assoc]]
    exact splitFC_cons_of keySpeedName n3 (by decide)
  have hkeyA : toLowerChars (stripChars keyTempName) =
      "temperature".toList := by
    rw [strip_no_ws keyTname_no_ws]
    decide
  have hkeyB : toLowerChars (stripChars keyPressName) =
      "pressure".toList := by
    rw [strip_no_ws keyPname_no_ws]
    decide
  have hkeyC : toLowerChars (stripChars keySpeedName) = "speed".toList := by
    rw [strip_no_ws keySname_no_ws]
    decide
  have hvalA : pyFloat (stripChars n1) = specNumVal n1 := by
    rw [strip_no_ws (fun c hc => isDigitDot_not_ws (ha1 c hc)),
      pyFloat_eq_specNum ha1]
  have hvalB : pyFloat (stripChars n2) = specNumVal n2 := by
    rw [strip_no_ws (fun c hc => isDigitDot_not_ws (ha2 c hc)),
      pyFloat_eq_specNum ha2]
  have hvalC : pyFloat (stripChars n3) = specNumVal n3 := by
    rw [strip_no_ws (fun c hc => isDigitDot_not_ws (ha3 c hc)),
      pyFloat_eq_specNum ha3]
  simp only [parse_sensor_data, hs, hval, Bool.true_eq_false, if_false,
    decomp_splitOn hDfull]
  rcases hq1 : specNumVal n1 with _ | q1
  · simp only [buildSensors, hstripA, hsplitA, hvalA, hq1]
  · rcases hq2 : specNumVal n2 with _ | q2
    · simp only [buildSensors, hstripA, hsplitA, hvalA, hq1,
        hstripB, hsplitB, hvalB, hq2]
    · rcases hq3 : specNumVal n3 with _ | q3
      · simp only [buildSensors, hstripA, hsplitA, hvalA, hq1,
          hstripB, hsplitB, hvalB, hq2, hstripC, hsplitC, hvalC, hq3]
      · simp only [buildSensors, hstripA, hsplitA, hvalA, hq1,
          hstripB, hsplitB, hvalB, hq2, hstripC, hsplitC, hvalC, hq3,
          hkeyA, hkeyB, hkeyC]
        rw [lookupKey, if_neg (by decide), lookupKey, if_neg (by decide),
          lookupKey, if_pos rfl]
        rw [lookupKey, if_neg (by decide), lookupKey, if_pos rfl]
        rw [lookupKey, if_pos rfl]

theorem wire_of_decomp {d n1 w2 n2 w3 n3 : List Char} {s : String}
    (hD : Decomp d n1 w2 n2 w3 n3) (hs : stripChars s.toList = d) :
    wireParse s =
      match specNumVal n1, specNumVal n2, specNumVal n3 with
      | some t, some p, some v => some (t, p, v)
      | _, _, _ => none := by
  obtain ⟨hd, ⟨hn1, ha1⟩, ⟨hn2, ha2⟩, ⟨hn3, ha3⟩, hw2, hw3⟩ := hD
  have hDfull : Decomp d n1 w2 n2 w3 n3 :=
    ⟨hd, ⟨hn1, ha1⟩, ⟨hn2, ha2⟩, ⟨hn3, ha3⟩, hw2, hw3⟩
  have hf1 : wireField keyTemperature (keyTemperature ++ n1) =
      specNumVal n1 := by
    rw [wireField, dropLit_of_append]
    rfl
  have hdw2 : (w2 ++ (keyPressure ++ n2)).dropWhile pyWs =
      keyPressure ++ n2 := by
    rw [List.dropWhile_append_of_pos hw2, dropWhile_head_false
      (head_cond_append (show keyPressure.head? = some 'P' from rfl)
        (by decide) _)]
  have hdw3 : (w3 ++ (keySpeed ++ n3)).dropWhile pyWs = keySpeed ++ n3 := by
    rw [List.dropWhile_append_of_pos hw3, dropWhile_head_false
      (head_cond_append (show keySpeed.head? = some 'S' from rfl)
        (by decide) _)]
  have hf2 : wireField keyPressure (keyPressure ++ n2) = specNumVal n2 := by
    rw [wireField, dropLit_of_append]
    rfl
  have hf3 : wireField keySpeed (keySpeed ++ n3) = specNumVal n3 := by
    rw [wireField, dropLit_of_append]
    rfl
  rw [wireParse, hs, decomp_splitOn hDfull]
  simp only [hdw2, hdw3, hf1, hf2, hf3]

theorem wire_some_decomp {s : String} {t p v : ℚ}
    (h : wireParse s = some (t, p, v)) :
    ∃ n1 w2 n2 w3 n3, Decomp (stripChars s.toList) n1 w2 n2 w3 n3 := by
  rw [wireParse] at h
  rcases hsp : splitOnChar ',' (stripChars s.toList) with _ | ⟨f1, rest1⟩
  · rw [hsp] at h; simp at h
  rcases rest1 with _ | ⟨f2, rest2⟩
  · rw [hsp] at h; simp at h
  rcases rest2 with _ | ⟨f3, rest3⟩
  · rw [hsp] at h; simp at h
  rcases rest3 with _ | ⟨f4, rest4⟩
  swap
  · rw [hsp] at h; simp at h
  rw [hsp] at h
  simp only [] at h
  cases hw1 : wireField keyTemperature f1 with
  | none => rw [hw1] at h; simp at h
  | some q1 =>
  cases hw2f : wireField keyPressure (f2.dropWhile pyWs) with
  | none => rw [hw1, hw2f] at h; simp at h
  | some q2 =>
  cases hw3f : wireField keySpeed (f3.dropWhile pyWs) with
  | none => rw [hw1, hw2f, hw3f] at h; simp at h
  | some q3 =>
  rw [wireField] at hw1 hw2f hw3f
  cases hd1 : dropLit keyTemperature f1 with
  | none => rw [hd1] at hw1; simp at hw1
  | some v1 =>
  rw [hd1] at hw1
  simp only [Option.some_bind] at hw1
  cases hd2 : dropLit keyPressure (f2.dropWhile pyWs) with
  | none => rw [hd2] at hw2f; simp at hw2f
  | some v2 =>
  rw [hd2] at hw2f
  simp only [Option.some_bind] at hw2f
  cases hd3 : dropLit keySpeed (f3.dropWhile pyWs) with
  | none => rw [hd3] at hw3f; simp at hw3f
  | some v3 =>
  rw [hd3] at hw3f
  simp only [Option.some_bind] at hw3f
  obtain ⟨hne1, hall1⟩ := specNum_shape hw1
  obtain ⟨hne2, hall2⟩ := specNum_shape hw2f
  obtain ⟨hne3, hall3⟩ := specNum_shape hw3f
  have hsplit3 := splitOn_three hsp
  have hf1eq : f1 = keyTemperature ++ v1 := dropLit_some hd1
  have hf2eq : f2 = f2.takeWhile pyWs ++ (keyPressure ++ v2) := by
    conv_lhs => rw [← List.takeWhile_append_dropWhile pyWs f2]
    rw [dropLit_some hd2]
  have hf3eq : f3 = f3.takeWhile pyWs ++ (keySpeed ++ v3) := by
    conv_lhs => rw [← List.takeWhile_append_dropWhile pyWs f3]
    rw [dropLit_some hd3]
  refine ⟨v1, f2.takeWhile pyWs, v2, f3.takeWhile pyWs, v3, ?_,
    ⟨hne1, hall1⟩, ⟨hne2, hall2⟩, ⟨hne3, hall3⟩,
    fun c hc => List.mem_takeWhile_imp hc,
    fun c hc => List.mem_takeWhile_imp hc⟩
  rw [hf1eq] at hsplit3
  rw [hf2eq] at hsplit3
  rw [hf3eq] at hsplit3
  rw [hsplit3]
  simp [List.append_assoc]

/-! ## C1 — the parser is exactly the wire format -/

theorem parse_some_decomp {now : ℚ} {s : String} {r : SensorReading}
    (h : parse_sensor_data now s = some r) :
    ∃ n1 w2 n2 w3 n3, Decomp (stripChars s.toList) n1 w2 n2 w3 n3 := by
  simp only [parse_sensor_data] at h
  by_cases hv : validate_data (String.mk (stripChars s.toList)) = false
  · rw [if_pos hv] at h
    exact absurd h (by simp)
  · have hvt : validate_data (String.mk (stripChars s.toList)) = true := by
      cases hx : validate_data (String.mk (stripChars s.toList))
      · exact absurd hx hv
      · rfl
    rw [validate_data,
      show (String.mk (stripChars s.toList)).toList = stripChars s.toList
        from rfl, strip_idem] at hvt
    have hsome : validateScan (stripChars s.toList) = some () := by
      cases hy : validateScan (stripChars s.toList) with
      | none => rw [hy] at hvt; simp at hvt
      | some u => cases u; rfl
    exact validate_decomp hsome

/-- C1: the parser realises exactly the wire format.  For every line that
the wire format (three fields `TEMPERATURE`, `PRESSURE`, `SPEED`, each
`KEY:base-10-number`, comma-separated) accepts with transmitted values
`(t, p, v)`, `_parse_sensor_data` returns a `SensorReading` carrying
exactly those three values (rationals model exact parse fidelity) — never a
partially populated one; for every line the wire format rejects (missing
field, non-numeric value, missing colon, anything else), it returns
`None`. -/
theorem c1_parse_correct (s : String) (now : ℚ) :
    (∀ t p v, wireParse s = some (t, p, v) →
      parse_sensor_data now s =
        some ⟨t, p, v, now, String.mk (stripChars s.toList)⟩) ∧
    (wireParse s = none → parse_sensor_data now s = none) := by
  constructor
  · intro t p v hw
    obtain ⟨n1, w2, n2, w3, n3, hD⟩ := wire_some_decomp hw
    have hpe := parse_of_decomp hD rfl now
    have hwe := wire_of_decomp hD rfl
    rw [hwe] at hw
    rw [hpe]
    rcases h1 : specNumVal n1 with _ | q1
    · rw [h1] at hw; simp at hw
    rcases h2 : specNumVal n2 with _ | q2
    · rw [h1, h2] at hw; simp at hw
    rcases h3 : specNumVal n3 with _ | q3
    · rw [h1, h2, h3] at hw; simp at hw
    rw [h1, h2, h3] at hw
    simp only [Option.some.injEq, Prod.mk.injEq] at hw
    obtain ⟨hq1, hq2, hq3⟩ := hw
    subst hq1
    subst hq2
    subst hq3
    rfl
  · intro hw
    by_cases hv : validateScan (stripChars s.toList) = some ()
    · obtain ⟨n1, w2, n2, w3, n3, hD⟩ := validate_decomp hv
      rw [parse_of_decomp hD rfl now]
      rw [wire_of_decomp hD rfl] at hw
      rcases h1 : specNumVal n1 with _ | q1
      · rfl
      rcases h2 : specNumVal n2 with _ | q2
      · rfl
      rcases h3 : specNumVal n3 with _ | q3
      · rfl
      rw [h1, h2, h3] at hw
      simp at hw
    · simp only [parse_sensor_data]
      have hvf : validate_data (String.mk (stripChars s.toList)) = false := by
        rw [validate_data,
          show (String.mk (stripChars s.toList)).toList = stripChars s.toList
            from rfl, strip_idem]
        cases hy : validateScan (stripChars s.toList) with
        | none => rfl
        | some u => cases u; exact absurd hy hv
      rw [if_pos hvf]

theorem c1_witness :
    parse_sensor_data 0 "TEMPERATURE:25.5,PRESSURE:101.3,SPEED:150" =
      some ⟨51 / 2, 1013 / 10, 150, 0,
        "TEMPERATURE:25.5,PRESSURE:101.3,SPEED:150"⟩ ∧
    parse_sensor_data 0 "TEMPERATURE:25.5,PRESSURE:101.3" = none := by
  constructor
  · have h :=
      (c1_parse_correct "TEMPERATURE:25.5,PRESSURE:101.3,SPEED:150" 0).1
      (51 / 2) (1013 / 10) 150 (by with_unfolding_all rfl)
    exact h.trans (by with_unfolding_all rfl)
  · exact (c1_parse_correct "TEMPERATURE:25.5,PRESSURE:101.3" 0).2
      (by with_unfolding_all rfl)

/-! ## C4 — keys are matched case-sensitively -/

theorem isDigitDot_not_lower {c : Char} (h : isDigitDot c = true) :
    c.isLower = false := by
  simp only [isDigitDot, Bool.or_eq_true, beq_iff_eq] at h
  rcases h with hd | rfl
  · by_contra hl
    have hl2 : c.isLower = true := by revert hl; cases c.isLower <;> simp
    simp only [Char.isDigit] at hd
    simp only [Char.isLower] at hl2
    have h1 : c ≤ '9' := by
      have := Bool.and_elim_right hd
      simpa [decide_eq_true_eq] using this
    have h2 : 'a' ≤ c := by
      have := Bool.and_elim_left hl2
      simpa [decide_eq_true_eq] using this
    exact absurd (le_trans h2 h1) (by decide)
  · decide

theorem pyWs_not_lower {c : Char} (h : pyWs c = true) : c.isLower = false := by
  simp only [pyWs, Bool.or_eq_true, beq_iff_eq] at h
  rcases h with ((((rfl | rfl) | rfl) | rfl) | rfl) | rfl <;> decide

/-- C4 counterexample: the validation pattern is case-sensitive — the
lower-case form of a valid line is rejected while the upper-case form is
accepted. -/
theorem c4_cex :
    parse_sensor_data 0 "temperature:25.5,pressure:101.3,speed:150" = none ∧
    (parse_sensor_data 0
      "TEMPERATURE:25.5,PRESSURE:101.3,SPEED:150").isSome = true := by
  constructor
  · with_unfolding_all rfl
  · with_unfolding_all rfl

/-- C4 (amended): key matching is case-sensitive, upper-case only: every
line `_parse_sensor_data` accepts contains no lower-case character at all
(the keys appear exactly as `TEMPERATURE`, `PRESSURE`, `SPEED`); lines
with lower- or mixed-case keys are rejected. -/
theorem c4_keys_case_sensitive (now : ℚ) (s : String) (r : SensorReading)
    (h : parse_sensor_data now s = some r) :
    (stripChars s.toList).all (fun c => !c.isLower) = true := by
  obtain ⟨n1, w2, n2, w3, n3, hD⟩ := parse_some_decomp h
  obtain ⟨hd, ⟨hn1, ha1⟩, ⟨hn2, ha2⟩, ⟨hn3, ha3⟩, hw2, hw3⟩ := hD
  rw [hd]
  simp only [List.all_append, Bool.and_eq_true]
  refine ⟨⟨⟨⟨⟨⟨⟨⟨⟨by decide, ?_⟩, by decide⟩, ?_⟩, by decide⟩, ?_⟩,
    by decide⟩, ?_⟩, by decide⟩, ?_⟩
  · exact List.all_eq_true.mpr fun c hc => by
      simp [isDigitDot_not_lower (ha1 c hc)]
  · exact List.all_eq_true.mpr fun c hc => by
      simp [pyWs_not_lower (hw2 c hc)]
  · exact List.all_eq_true.mpr fun c hc => by
      simp [isDigitDot_not_lower (ha2 c hc)]
  · exact List.all_eq_true.mpr fun c hc => by
      simp [pyWs_not_lower (hw3 c hc)]
  · exact List.all_eq_true.mpr fun c hc => by
      simp [isDigitDot_not_lower (ha3 c hc)]

theorem c4_witness :
    (stripChars "TEMPERATURE:1,PRESSURE:2,SPEED:3".toList).all
      (fun c => !c.isLower) = true :=
  c4_keys_case_sensitive 0 "TEMPERATURE:1,PRESSURE:2,SPEED:3"
    ⟨1, 2, 3, 0, "TEMPERATURE:1,PRESSURE:2,SPEED:3"⟩
    (by with_unfolding_all rfl)

/-! ## C5 — extra fields are rejected, not tolerated -/

/-- C5 counterexample: a line with the three valid required fields plus an
extra `EXTRA:4` field is rejected by the anchored validation pattern. -/
theorem c5_cex :
    parse_sensor_data 0 "TEMPERATURE:1,PRESSURE:2,SPEED:3,EXTRA:4" =
      none := by
  with_unfolding_all rfl

/-- C5 (amended): extra fields are not tolerated: the anchored validation
pattern admits exactly the three required fields, so every accepted line
splits on commas into exactly three parts. -/
theorem c5_exactly_three_fields (now : ℚ) (s : String) (r : SensorReading)
    (h : parse_sensor_data now s = some r) :
    (splitOnChar ',' (stripChars s.toList)).length = 3 := by
  obtain ⟨n1, w2, n2, w3, n3, hD⟩ := parse_some_decomp h
  rw [decomp_splitOn hD]
  rfl

theorem c5_witness :
    (splitOnChar ','
      (stripChars "TEMPERATURE:1,PRESSURE:2,SPEED:3".toList)).length = 3 :=
  c5_exactly_three_fields 0 "TEMPERATURE:1,PRESSURE:2,SPEED:3"
    ⟨1, 2, 3, 0, "TEMPERATURE:1,PRESSURE:2,SPEED:3"⟩
    (by with_unfolding_all rfl)

end PLCReader
